import Mathlib

set_option maxRecDepth 40000

/-!
Verification development for the Project-Ghost retrieval backend
(`backend/vector_store.py`, `backend/reranker_service.py`, `backend/routes.py`,
`backend/llm_service.py`, `backend/agent_tools.py`, `backend/agent_service.py`).

Python `str` values are modelled as `List Char` (a Python string is a sequence
of unicode code points, and all the code under study manipulates it by
character index).  Python `float` scores are modelled as `ℚ` (the constants
0.7, 0.6, 0.05 … are treated as exact rationals).  The external collaborators
(embedding model, chromadb index, HTTP completion provider, JSON parser) are
modelled as explicit inputs to the functions that consume their results.
-/

/-! ## Character classes used by `vector_store._split_into_chunks`

`isPySpace` models the characters Python's `str.strip()` removes and the
regex class `\s` matches on `str` (ASCII whitespace plus the common unicode
space characters; all inputs appearing in theorems below are ASCII, where the
two notions agree exactly). -/

def isPySpace (c : Char) : Bool :=
  c == ' ' || c == '\t' || c == '\n' || c == '\x0d' || c == '\x0b' || c == '\x0c' ||
  c == '\x1c' || c == '\x1d' || c == '\x1e' || c == '\x1f' || c == '\x85' ||
  c == '\xa0' || c == '　'

/-- Python `str.strip()`: drop whitespace from both ends. -/
def pyStrip (s : List Char) : List Char :=
  ((s.dropWhile isPySpace).reverse.dropWhile isPySpace).reverse

/-- The regex class `[。！？.!?\n]` of `_split_into_chunks` (sentence-ending
punctuation, ASCII and full-width). -/
def isSentenceEnd (c : Char) : Bool :=
  c == '。' || c == '！' || c == '？' || c == '.' || c == '!' || c == '?' || c == '\n'

/-- The regex class `[\s,，;；、]` of `_split_into_chunks` (whitespace, commas,
semicolons, enumeration comma). -/
def isSoftBreak (c : Char) : Bool :=
  isPySpace c || c == ',' || c == '，' || c == ';' || c == '；' || c == '、'

/-- `for m in re.finditer(pat, region): boundary_match = m` followed by
`boundary_match.end()`: the end position (index + 1) of the LAST character of
`region` matching the single-character class `p`, or `none` when no character
matches. -/
def lastMatchEnd (p : Char → Bool) : List Char → Option Nat
  | [] => none
  | c :: rest =>
    match lastMatchEnd p rest with
    | some k => some (k + 1)
    | none => if p c then some 1 else none

/-! ## The chunking constants of `vector_store.py` -/

def CHUNK_SIZE : Nat := 400

def CHUNK_OVERLAP : Nat := 100

def MIN_CHUNK_SIZE : Nat := 50

/-- The cut-point search of one iteration of `_split_into_chunks`
(vector_store.py lines 52–88): try the rightmost sentence end in the last 80
characters of the window `text[start : start+CHUNK_SIZE]`, then the rightmost
soft break in the last 40 characters, else force-cut at the window end.
`text[a:b]` is `(text.take b).drop a`. -/
def cut_pos (text : List Char) (start : Nat) : Nat :=
  match lastMatchEnd isSentenceEnd
      ((text.take (start + CHUNK_SIZE)).drop (max start (start + CHUNK_SIZE - 80))) with
  | some k => max start (start + CHUNK_SIZE - 80) + k
  | none =>
    match lastMatchEnd isSoftBreak
        ((text.take (start + CHUNK_SIZE)).drop (max start (start + CHUNK_SIZE - 40))) with
    | some k => max start (start + CHUNK_SIZE - 40) + k
    | none => start + CHUNK_SIZE

/-- The window advance of `_split_into_chunks` (lines 96–100):
`start = cut_pos - CHUNK_OVERLAP`, and the safety check
`if start <= cut_pos - CHUNK_SIZE: start = cut_pos`.  The comparison is made
on ℤ because Python integers are signed (`cut_pos - CHUNK_SIZE` is negative
for small cut positions). -/
def nextStart (text : List Char) (start : Nat) : Nat :=
  if (cut_pos text start : Int) - (CHUNK_OVERLAP : Int) ≤
      (cut_pos text start : Int) - (CHUNK_SIZE : Int) then
    cut_pos text start
  else
    cut_pos text start - CHUNK_OVERLAP

/-- `chunks[-1] = chunks[-1] + " " + chunk`. -/
def mergeLast : List (List Char) → List Char → List (List Char)
  | [], _ => []
  | [last], c => [last ++ ' ' :: c]
  | x :: y :: xs, c => x :: mergeLast (y :: xs) c

/-- Chunk emission in the middle of the loop (lines 90–94): append when the
stripped chunk reaches `MIN_CHUNK_SIZE`, merge into the previous chunk when
one exists, otherwise drop it. -/
def emitMid (chunks : List (List Char)) (chunk : List Char) : List (List Char) :=
  if chunk ≠ [] ∧ MIN_CHUNK_SIZE ≤ chunk.length then chunks ++ [chunk]
  else if chunk ≠ [] ∧ chunks ≠ [] then mergeLast chunks chunk
  else chunks

/-- Chunk emission for the final remainder (lines 54–64): as `emitMid`, but a
non-empty remainder is appended even below `MIN_CHUNK_SIZE` when no previous
chunk exists. -/
def emitFinal (chunks : List (List Char)) (chunk : List Char) : List (List Char) :=
  if chunk ≠ [] ∧ MIN_CHUNK_SIZE ≤ chunk.length then chunks ++ [chunk]
  else if chunk ≠ [] ∧ chunks ≠ [] then mergeLast chunks chunk
  else if chunk ≠ [] then chunks ++ [chunk]
  else chunks

/-- The `while start < text_len` loop of `_split_into_chunks` (lines 51–100),
written with explicit fuel so the function is structurally recursive; `none`
means the fuel ran out (the totality theorem for C8 shows fuel
`text.length + 1` always suffices). -/
def splitLoop (text : List Char) : Nat → Nat → List (List Char) → Option (List (List Char))
  | 0, _, _ => none
  | fuel + 1, start, chunks =>
    if start < text.length then
      if text.length ≤ start + CHUNK_SIZE then
        some (emitFinal chunks (pyStrip (text.drop start)))
      else
        splitLoop text fuel (nextStart text start)
          (emitMid chunks (pyStrip ((text.take (cut_pos text start)).drop start)))
    else
      some chunks

/-- `_split_into_chunks` (vector_store.py lines 34–102).  The guard clause
collapses the Python conditional expression of line 45 verbatim; the final
line 102 returns `[text]` when every candidate chunk was dropped. -/
def split_into_chunks (text : List Char) : Option (List (List Char)) :=
  if text = [] ∨ text.length ≤ CHUNK_SIZE then
    some (if text ≠ [] ∧ MIN_CHUNK_SIZE ≤ text.length then [text]
          else if text ≠ [] then [text] else [])
  else
    match splitLoop text (text.length + 1) 0 [] with
    | none => none
    | some chunks => some (if chunks ≠ [] then chunks else [text])

/-- `vector_store.split_text` (lines 346–348): the public interface, a direct
call to `_split_into_chunks`. -/
def split_text (text : List Char) : Option (List (List Char)) :=
  split_into_chunks text

/-! ## Instrumented loop: the `(start, cut)` windows the loop processes

`splitSpansLoop` follows exactly the control flow of `splitLoop` but records
the half-open interval of source positions each iteration cuts its chunk from
(the final iteration cuts `text[start:]`, i.e. up to `text.length`). -/

def splitSpansLoop (text : List Char) : Nat → Nat → Option (List (Nat × Nat))
  | 0, _ => none
  | fuel + 1, start =>
    if start < text.length then
      if text.length ≤ start + CHUNK_SIZE then
        some [(start, text.length)]
      else
        match splitSpansLoop text fuel (nextStart text start) with
        | none => none
        | some spans => some ((start, cut_pos text start) :: spans)
    else some []

def splitSpans (text : List Char) : Option (List (Nat × Nat)) :=
  splitSpansLoop text (text.length + 1) 0

/-- The chunk text a window produces: `text[sp.1 : sp.2].strip()`. -/
def spanChunk (text : List Char) (sp : Nat × Nat) : List Char :=
  pyStrip ((text.take sp.2).drop sp.1)

/-- Replay the loop's chunk emission over a list of recorded windows: every
window but the last goes through `emitMid`, the last through `emitFinal`. -/
def foldSpans (text : List Char) : List (List Char) → List (Nat × Nat) → List (List Char)
  | acc, [] => acc
  | acc, [sp] => emitFinal acc (spanChunk text sp)
  | acc, sp :: sp2 :: rest => foldSpans text (emitMid acc (spanChunk text sp)) (sp2 :: rest)

/-- "Concatenating chunks ignoring overlap": the first chunk followed by every
later chunk with its first `CHUNK_OVERLAP` characters removed. -/
def concatNonOverlap : List (List Char) → List Char
  | [] => []
  | c :: rest => c ++ (rest.map (fun d => d.drop CHUNK_OVERLAP)).flatten

/-! ## Basic facts about the cut-point search -/

theorem lastMatchEnd_bounds (p : Char → Bool) :
    ∀ (l : List Char) (k : Nat), lastMatchEnd p l = some k → 1 ≤ k ∧ k ≤ l.length := by
  intro l
  induction l with
  | nil => intro k h; simp [lastMatchEnd] at h
  | cons c rest ih =>
    intro k h
    simp only [lastMatchEnd] at h
    cases hrest : lastMatchEnd p rest with
    | some j =>
      rw [hrest] at h
      have := ih j hrest
      simp only [Option.some.injEq] at h
      simp [← h, List.length_cons]
      omega
    | none =>
      rw [hrest] at h
      by_cases hp : p c
      · simp [hp] at h
        simp [← h, List.length_cons]
      · simp [hp] at h

theorem cut_pos_bounds (text : List Char) (start : Nat)
    (h : start + CHUNK_SIZE < text.length) :
    start + 320 < cut_pos text start ∧ cut_pos text start ≤ start + CHUNK_SIZE := by
  have e80 : max start (start + CHUNK_SIZE - 80) = start + 320 := by
    unfold CHUNK_SIZE; omega
  have e40 : max start (start + CHUNK_SIZE - 40) = start + 360 := by
    unfold CHUNK_SIZE; omega
  have l80 : ((text.take (start + CHUNK_SIZE)).drop (max start (start + CHUNK_SIZE - 80))).length = 80 := by
    rw [List.length_drop, List.length_take, e80]
    unfold CHUNK_SIZE at *; omega
  have l40 : ((text.take (start + CHUNK_SIZE)).drop (max start (start + CHUNK_SIZE - 40))).length = 40 := by
    rw [List.length_drop, List.length_take, e40]
    unfold CHUNK_SIZE at *; omega
  cases h1 : lastMatchEnd isSentenceEnd
      ((text.take (start + CHUNK_SIZE)).drop (max start (start + CHUNK_SIZE - 80))) with
  | some k =>
    have hb := lastMatchEnd_bounds _ _ _ h1
    rw [l80] at hb
    have hc : cut_pos text start = max start (start + CHUNK_SIZE - 80) + k := by
      unfold cut_pos
      rw [h1]
    rw [hc, e80]
    unfold CHUNK_SIZE at *
    omega
  | none =>
    cases h2 : lastMatchEnd isSoftBreak
        ((text.take (start + CHUNK_SIZE)).drop (max start (start + CHUNK_SIZE - 40))) with
    | some k =>
      have hb := lastMatchEnd_bounds _ _ _ h2
      rw [l40] at hb
      have hc : cut_pos text start = max start (start + CHUNK_SIZE - 40) + k := by
        unfold cut_pos
        rw [h1, h2]
      rw [hc, e40]
      unfold CHUNK_SIZE at *
      omega
    | none =>
      have hc : cut_pos text start = start + CHUNK_SIZE := by
        unfold cut_pos
        rw [h1, h2]
      rw [hc]
      unfold CHUNK_SIZE
      omega

/-- The safety branch of the window advance never fires: `cut_pos - CHUNK_OVERLAP`
is always strictly greater than `cut_pos - CHUNK_SIZE`. -/
theorem nextStart_eq (text : List Char) (start : Nat) :
    nextStart text start = cut_pos text start - CHUNK_OVERLAP := by
  unfold nextStart
  rw [if_neg]
  unfold CHUNK_OVERLAP CHUNK_SIZE
  omega

theorem nextStart_advance (text : List Char) (start : Nat)
    (h : start + CHUNK_SIZE < text.length) :
    start < nextStart text start := by
  have hb := cut_pos_bounds text start h
  rw [nextStart_eq]
  unfold CHUNK_OVERLAP
  omega

theorem nextStart_le_cut (text : List Char) (start : Nat) :
    nextStart text start ≤ cut_pos text start := by
  rw [nextStart_eq]
  omega

/-! ## Totality of the chunking loop -/

theorem splitLoop_isSome (text : List Char) :
    ∀ (fuel start : Nat) (chunks : List (List Char)),
      text.length - start < fuel → (splitLoop text fuel start chunks).isSome := by
  intro fuel
  induction fuel with
  | zero => intro start chunks h; omega
  | succ n ih =>
    intro start chunks h
    rw [splitLoop]
    by_cases h1 : start < text.length
    · rw [if_pos h1]
      by_cases h2 : text.length ≤ start + CHUNK_SIZE
      · rw [if_pos h2]; rfl
      · rw [if_neg h2]
        apply ih
        have := nextStart_advance text start (by omega)
        omega
    · rw [if_neg h1]; rfl

theorem split_text_isSome (text : List Char) : (split_text text).isSome := by
  unfold split_text split_into_chunks
  by_cases h : text = [] ∨ text.length ≤ CHUNK_SIZE
  · rw [if_pos h]; rfl
  · rw [if_neg h]
    have := splitLoop_isSome text (text.length + 1) 0 [] (by omega)
    cases hs : splitLoop text (text.length + 1) 0 [] with
    | none => rw [hs] at this; simp at this
    | some chunks => rfl

/-! ## The chunk-length invariant of the loop -/

/-- All chunks in the accumulator are non-empty and at least `MIN_CHUNK_SIZE`
long. -/
def GoodChunks (chunks : List (List Char)) : Prop :=
  ∀ c ∈ chunks, c ≠ [] ∧ MIN_CHUNK_SIZE ≤ c.length

theorem mergeLast_good {chunks : List (List Char)} {k : List Char}
    (h : GoodChunks chunks) : GoodChunks (mergeLast chunks k) := by
  induction chunks with
  | nil => simpa [mergeLast] using h
  | cons x xs ih =>
    cases xs with
    | nil =>
      intro c hc
      simp only [mergeLast, List.mem_singleton] at hc
      have hx := h x (by simp)
      subst hc
      constructor
      · simp
      · simp only [List.length_append, List.length_cons]
        omega
    | cons y ys =>
      intro c hc
      simp only [mergeLast, List.mem_cons] at hc
      rcases hc with rfl | hc
      · exact h c (by simp)
      · have hxs : GoodChunks (y :: ys) := fun d hd => h d (by simp [hd])
        exact ih hxs c (by simpa [mergeLast] using hc)

theorem emitMid_good {chunks : List (List Char)} {chunk : List Char}
    (h : GoodChunks chunks) : GoodChunks (emitMid chunks chunk) := by
  unfold emitMid
  by_cases h1 : chunk ≠ [] ∧ MIN_CHUNK_SIZE ≤ chunk.length
  · rw [if_pos h1]
    intro c hc
    rcases List.mem_append.1 hc with hc | hc
    · exact h c hc
    · simp only [List.mem_singleton] at hc; subst hc; exact h1
  · rw [if_neg h1]
    by_cases h2 : chunk ≠ [] ∧ chunks ≠ []
    · rw [if_pos h2]; exact mergeLast_good h
    · rw [if_neg h2]; exact h

/-- After the loop, either every chunk respects `MIN_CHUNK_SIZE`, or the
result is a single non-empty chunk (the final remainder emitted with an empty
accumulator). -/
theorem splitLoop_good (text : List Char) :
    ∀ (fuel start : Nat) (chunks out : List (List Char)),
      splitLoop text fuel start chunks = some out → GoodChunks chunks →
      GoodChunks out ∨ ∃ c, out = [c] ∧ c ≠ [] := by
  intro fuel
  induction fuel with
  | zero => intro start chunks out h; simp [splitLoop] at h
  | succ n ih =>
    intro start chunks out h hg
    rw [splitLoop] at h
    by_cases h1 : start < text.length
    · rw [if_pos h1] at h
      by_cases h2 : text.length ≤ start + CHUNK_SIZE
      · rw [if_pos h2] at h
        simp only [Option.some.injEq] at h
        subst h
        unfold emitFinal
        by_cases e1 : pyStrip (text.drop start) ≠ [] ∧
            MIN_CHUNK_SIZE ≤ (pyStrip (text.drop start)).length
        · rw [if_pos e1]
          left
          intro c hc
          rcases List.mem_append.1 hc with hc | hc
          · exact hg c hc
          · simp only [List.mem_singleton] at hc; subst hc; exact e1
        · rw [if_neg e1]
          by_cases e2 : pyStrip (text.drop start) ≠ [] ∧ chunks ≠ []
          · rw [if_pos e2]
            left
            exact mergeLast_good hg
          · rw [if_neg e2]
            by_cases e3 : pyStrip (text.drop start) ≠ []
            · rw [if_pos e3]
              right
              have hnil : chunks = [] := by
                by_contra hne
                exact e2 ⟨e3, hne⟩
              subst hnil
              exact ⟨pyStrip (text.drop start), by simp, e3⟩
            · rw [if_neg e3]
              left
              exact hg
      · rw [if_neg h2] at h
        exact ih _ _ _ h (emitMid_good hg)
    · rw [if_neg h1] at h
      simp only [Option.some.injEq] at h
      subst h
      left
      exact hg

/-! ## The loop's chunks are the fold of its windows -/

theorem splitSpansLoop_ne_nil (text : List Char) :
    ∀ (fuel start : Nat) (spans : List (Nat × Nat)),
      splitSpansLoop text fuel start = some spans → start < text.length → spans ≠ [] := by
  intro fuel start spans h hlt
  cases fuel with
  | zero => simp [splitSpansLoop] at h
  | succ n =>
    rw [splitSpansLoop, if_pos hlt] at h
    by_cases h2 : text.length ≤ start + CHUNK_SIZE
    · rw [if_pos h2] at h
      simp only [Option.some.injEq] at h
      subst h; simp
    · rw [if_neg h2] at h
      cases hrec : splitSpansLoop text n (nextStart text start) with
      | none => rw [hrec] at h; simp at h
      | some spans' =>
        rw [hrec] at h
        simp only [Option.some.injEq] at h
        subst h; simp

theorem splitLoop_eq_foldSpans (text : List Char) :
    ∀ (fuel start : Nat) (acc : List (List Char)),
      splitLoop text fuel start acc =
        (splitSpansLoop text fuel start).map (fun spans => foldSpans text acc spans) := by
  intro fuel
  induction fuel with
  | zero => intro start acc; simp [splitLoop, splitSpansLoop]
  | succ n ih =>
    intro start acc
    rw [splitLoop, splitSpansLoop]
    by_cases h1 : start < text.length
    · rw [if_pos h1, if_pos h1]
      by_cases h2 : text.length ≤ start + CHUNK_SIZE
      · rw [if_pos h2, if_pos h2]
        have hfold : foldSpans text acc [(start, text.length)] =
            emitFinal acc (pyStrip (text.drop start)) := by
          unfold foldSpans spanChunk
          rw [List.take_length]
        simp [hfold]
      · rw [if_neg h2, if_neg h2]
        rw [ih (nextStart text start)
          (emitMid acc (pyStrip ((text.take (cut_pos text start)).drop start)))]
        cases hrec : splitSpansLoop text n (nextStart text start) with
        | none => simp
        | some spans' =>
          have hlt : nextStart text start < text.length := by
            have := cut_pos_bounds text start (by omega)
            have := nextStart_le_cut text start
            omega
          have hne := splitSpansLoop_ne_nil text n (nextStart text start) spans' hrec hlt
          cases spans' with
          | nil => exact absurd rfl hne
          | cons sp2 rest =>
            simp only [Option.map]
            rfl
    · rw [if_neg h1, if_neg h1]
      simp [foldSpans]

/-! ## Window coverage: the loop's windows cover the text contiguously -/

theorem splitSpansLoop_cover (text : List Char) :
    ∀ (fuel start : Nat), text.length - start < fuel →
      ∃ spans, splitSpansLoop text fuel start = some spans ∧
        (∀ sp ∈ spans, start ≤ sp.1 ∧ sp.1 < sp.2 ∧ sp.2 ≤ text.length) ∧
        (∀ p, start ≤ p → p < text.length → ∃ sp ∈ spans, sp.1 ≤ p ∧ p < sp.2) := by
  intro fuel
  induction fuel with
  | zero => intro start h; omega
  | succ n ih =>
    intro start h
    by_cases h1 : start < text.length
    · by_cases h2 : text.length ≤ start + CHUNK_SIZE
      · refine ⟨[(start, text.length)], ?_, ?_, ?_⟩
        · rw [splitSpansLoop, if_pos h1, if_pos h2]
        · intro sp hsp
          simp only [List.mem_singleton] at hsp
          subst hsp
          exact ⟨le_refl _, h1, le_refl _⟩
        · intro p hp1 hp2
          exact ⟨(start, text.length), by simp, hp1, hp2⟩
      · have hcut := cut_pos_bounds text start (by omega)
        have hadv := nextStart_advance text start (by omega)
        have hle := nextStart_le_cut text start
        obtain ⟨spans', hs', hb', hc'⟩ := ih (nextStart text start) (by omega)
        refine ⟨(start, cut_pos text start) :: spans', ?_, ?_, ?_⟩
        · rw [splitSpansLoop, if_pos h1, if_neg h2, hs']
        · intro sp hsp
          rcases List.mem_cons.1 hsp with rfl | hsp
          · exact ⟨le_refl _, by omega, by omega⟩
          · have := hb' sp hsp
            exact ⟨by omega, this.2.1, this.2.2⟩
        · intro p hp1 hp2
          by_cases hp3 : p < cut_pos text start
          · exact ⟨(start, cut_pos text start), by simp, hp1, hp3⟩
          · obtain ⟨sp, hsp, hsp1, hsp2⟩ := hc' p (by omega) hp2
            exact ⟨sp, by simp [hsp], hsp1, hsp2⟩
    · refine ⟨[], ?_, by simp, ?_⟩
      · cases fuel' : n with
        | zero => rw [splitSpansLoop, if_neg h1]
        | succ m => rw [splitSpansLoop, if_neg h1]
      · intro p hp1 hp2
        omega

/-! Sanity checks of the embedding on concrete inputs (mirroring hand
evaluation of the Python function). -/

example : split_text ('a' :: List.replicate 30 'b') = some [('a' :: List.replicate 30 'b')] := by decide

example : split_text [] = some [] := by decide

/-! ## Claim C8 — the chunking loop strictly advances, so `split_text` is total -/

/-- C8: in every continuing iteration of `_split_into_chunks` (i.e. whenever
the window does not yet reach the end of the text), the new start position is
strictly greater than the previous one, and consequently `split_text` always
terminates with a result (the fuel `text.length + 1` never runs out). -/
theorem C8_chunk_loop_advances (text : List Char) (start : Nat)
    (h : start + CHUNK_SIZE < text.length) :
    start < nextStart text start ∧ (split_text text).isSome :=
  ⟨nextStart_advance text start h, split_text_isSome text⟩

theorem C8_chunk_loop_advances_witness :
    0 < nextStart (List.replicate 401 'a') 0 ∧
      (split_text (List.replicate 401 'a')).isSome :=
  C8_chunk_loop_advances (List.replicate 401 'a') 0 (by decide)

/-! ## Claim C2 — chunk sizes

The claim's window bound `W = 400` is FALSE on the code: for 500 space
characters the loop strips every candidate chunk to emptiness, and line 102
(`return chunks if chunks else [text]`) returns the whole 500-character text
as a single chunk, longer than `CHUNK_SIZE`.  (Merging a short final remainder
into a 400-character chunk, lines 59–61, also exceeds the bound.)  What does
hold: every returned chunk is non-empty, and no chunk is shorter than
`MIN_CHUNK_SIZE` unless it is the only chunk returned. -/

/-- C2 counterexample: `split_text` on 500 spaces returns one chunk of length
500 > `CHUNK_SIZE` — the claim's bound "length at most W = 400" is violated. -/
theorem C2_counterexample_window_bound :
    split_text (List.replicate 500 ' ') = some [List.replicate 500 ' '] ∧
      CHUNK_SIZE < (List.replicate 500 ' ').length := by decide

/-- C2 (amended): every chunk returned by `split_text` is non-empty, and no
chunk is shorter than `MIN_CHUNK_SIZE = 50` unless it is the only chunk
returned; the upper bound `W` of the original claim does not hold. -/
theorem C2_amended_chunk_bounds (text : List Char) (cs : List (List Char))
    (h : split_text text = some cs) :
    ∀ c ∈ cs, c ≠ [] ∧ (MIN_CHUNK_SIZE ≤ c.length ∨ cs.length = 1) := by
  unfold split_text split_into_chunks at h
  by_cases h0 : text = [] ∨ text.length ≤ CHUNK_SIZE
  · rw [if_pos h0] at h
    simp only [Option.some.injEq] at h
    by_cases h1 : text ≠ [] ∧ MIN_CHUNK_SIZE ≤ text.length
    · rw [if_pos h1] at h
      subst h
      intro c hc
      simp only [List.mem_singleton] at hc
      subst hc
      exact ⟨h1.1, Or.inr rfl⟩
    · rw [if_neg h1] at h
      by_cases h2 : text ≠ []
      · rw [if_pos h2] at h
        subst h
        intro c hc
        simp only [List.mem_singleton] at hc
        subst hc
        exact ⟨h2, Or.inr rfl⟩
      · rw [if_neg h2] at h
        subst h
        intro c hc
        simp at hc
  · rw [if_neg h0] at h
    push_neg at h0
    cases hs : splitLoop text (text.length + 1) 0 [] with
    | none => rw [hs] at h; simp at h
    | some out =>
      rw [hs] at h
      simp only [Option.some.injEq] at h
      have hgood := splitLoop_good text (text.length + 1) 0 [] out hs (by intro c hc; simp at hc)
      by_cases h1 : out ≠ []
      · rw [if_pos h1] at h
        subst h
        rcases hgood with hgood | ⟨c0, rfl, hc0⟩
        · intro c hc
          exact ⟨(hgood c hc).1, Or.inl (hgood c hc).2⟩
        · intro c hc
          simp only [List.mem_singleton] at hc
          subst hc
          exact ⟨hc0, Or.inr rfl⟩
      · rw [if_neg h1] at h
        subst h
        intro c hc
        simp only [List.mem_singleton] at hc
        subst hc
        exact ⟨h0.1, Or.inr rfl⟩

theorem C2_amended_chunk_bounds_witness :
    List.replicate 400 'a' ≠ ([] : List Char) ∧
      (MIN_CHUNK_SIZE ≤ (List.replicate 400 'a').length ∨
        ([List.replicate 400 'a', List.replicate 150 'a'] : List (List Char)).length = 1) :=
  C2_amended_chunk_bounds (List.replicate 450 'a')
    [List.replicate 400 'a', List.replicate 150 'a'] (by decide)
    (List.replicate 400 'a') (by decide)

/-! ## Claim C1 — coverage of the source text by the chunks

String-level reconstruction is FALSE on the code: chunks are `strip()`-ed
(line 56 and 90), short stripped chunks are merged with an inserted `" "` or
dropped, so whitespace at chunk boundaries is lost.  On
`430 × 'a' ++ 30 × ' '` the trailing spaces appear in no chunk.  What does
hold is window-level coverage: the `(start, cut)` windows the loop cuts its
chunks from stay within the text's bounds and cover every position of the
text with no gaps, and the returned chunks are exactly the fold of those
windows through strip/emit/merge. -/

/-- C1 counterexample: a text longer than `CHUNK_SIZE` whose chunks do not
reconstruct the source when concatenated ignoring overlap (the trailing
spaces are stripped away), refuting the claim's "no gaps" reconstruction. -/
theorem C1_counterexample_reconstruction :
    CHUNK_SIZE < (List.replicate 430 'a' ++ List.replicate 30 ' ').length ∧
      split_text (List.replicate 430 'a' ++ List.replicate 30 ' ') =
        some [List.replicate 400 'a', List.replicate 130 'a'] ∧
      concatNonOverlap [List.replicate 400 'a', List.replicate 130 'a'] ≠
        List.replicate 430 'a' ++ List.replicate 30 ' ' := by decide

/-- C1 (amended): for every text longer than the window, the loop's cut
windows never exceed the text's bounds and cover the text contiguously with
no gaps, and the chunks `split_text` returns are exactly those windows'
stripped contents folded through the emit/merge logic — but because of the
stripping, merging and dropping, concatenating the chunks' non-overlap
regions does not in general reconstruct the source text. -/
theorem C1_amended_window_coverage (text : List Char) (h : CHUNK_SIZE < text.length) :
    ∃ spans, splitSpans text = some spans ∧
      splitLoop text (text.length + 1) 0 [] = some (foldSpans text [] spans) ∧
      (∀ sp ∈ spans, sp.1 < sp.2 ∧ sp.2 ≤ text.length) ∧
      (∀ p < text.length, ∃ sp ∈ spans, sp.1 ≤ p ∧ p < sp.2) := by
  obtain ⟨spans, hs, hb, hc⟩ := splitSpansLoop_cover text (text.length + 1) 0 (by omega)
  refine ⟨spans, hs, ?_, ?_, ?_⟩
  · rw [splitLoop_eq_foldSpans, hs]
    simp [Option.map]
  · intro sp hsp
    exact ⟨(hb sp hsp).2.1, (hb sp hsp).2.2⟩
  · intro p hp
    exact hc p (Nat.zero_le p) hp

theorem C1_amended_window_coverage_witness :
    ∃ spans, splitSpans (List.replicate 450 'a') = some spans ∧
      splitLoop (List.replicate 450 'a') ((List.replicate 450 'a').length + 1) 0 [] =
        some (foldSpans (List.replicate 450 'a') [] spans) ∧
      (∀ sp ∈ spans, sp.1 < sp.2 ∧ sp.2 ≤ (List.replicate 450 'a').length) ∧
      (∀ p < (List.replicate 450 'a').length, ∃ sp ∈ spans, sp.1 ≤ p ∧ p < sp.2) :=
  C1_amended_window_coverage (List.replicate 450 'a') (by decide)

/-! # Scores and sorting

Python float scores are modelled as ℚ.  `round(x, 4)` is decimal rounding
half-to-even.  Python's `sorted(..., key=..., reverse=True)` is a stable
descending sort; we model it with a stable insertion sort (stability and the
ordering determine the result uniquely, so any stable algorithm is a faithful
model). -/

/-- Floor of a rational (numerator `fdiv` denominator; the denominator is
positive). -/
def ratFloor (q : ℚ) : ℤ := Int.fdiv q.num q.den

/-- Python `round(x, 4)`: scale by 10⁴, round half to even, scale back. -/
def round4 (x : ℚ) : ℚ :=
  ((if x * 10000 - (ratFloor (x * 10000) : ℚ) < 1/2 then ratFloor (x * 10000)
    else if (1 : ℚ)/2 < x * 10000 - (ratFloor (x * 10000) : ℚ) then ratFloor (x * 10000) + 1
    else if ratFloor (x * 10000) % 2 = 0 then ratFloor (x * 10000)
    else ratFloor (x * 10000) + 1 : ℤ) : ℚ) / 10000

/-- Stable insertion into a descending-sorted list: `d` goes in front of the
first element whose key is not larger (elements already in the list precede
`d` in the original order only if they sorted strictly higher — see
`sortByDesc`, which inserts from the right). -/
def insertByDesc {α : Type} (key : α → ℚ) (d : α) : List α → List α
  | [] => [d]
  | x :: xs => if key x ≤ key d then d :: x :: xs else x :: insertByDesc key d xs

/-- Stable descending sort by a rational key: Python's
`sorted(l, key=key, reverse=True)`. -/
def sortByDesc {α : Type} (key : α → ℚ) : List α → List α
  | [] => []
  | x :: xs => insertByDesc key x (sortByDesc key xs)

theorem insertByDesc_perm {α : Type} (key : α → ℚ) (d : α) (l : List α) :
    (insertByDesc key d l).Perm (d :: l) := by
  induction l with
  | nil => simp [insertByDesc]
  | cons x xs ih =>
    unfold insertByDesc
    by_cases h : key x ≤ key d
    · rw [if_pos h]
    · rw [if_neg h]
      exact ((ih.cons x).trans (List.Perm.swap d x xs))

theorem sortByDesc_perm {α : Type} (key : α → ℚ) (l : List α) :
    (sortByDesc key l).Perm l := by
  induction l with
  | nil => simp [sortByDesc]
  | cons x xs ih =>
    exact (insertByDesc_perm key x (sortByDesc key xs)).trans (ih.cons x)

theorem mem_insertByDesc {α : Type} {key : α → ℚ} {d a : α} {l : List α} :
    a ∈ insertByDesc key d l ↔ a = d ∨ a ∈ l := by
  rw [(insertByDesc_perm key d l).mem_iff]
  simp

theorem insertByDesc_sorted {α : Type} {key : α → ℚ} {d : α} {l : List α}
    (h : l.Pairwise (fun a b => key b ≤ key a)) :
    (insertByDesc key d l).Pairwise (fun a b => key b ≤ key a) := by
  induction l with
  | nil => simp [insertByDesc]
  | cons x xs ih =>
    unfold insertByDesc
    by_cases hx : key x ≤ key d
    · rw [if_pos hx]
      refine List.Pairwise.cons ?_ h
      intro y hy
      rcases List.mem_cons.1 hy with rfl | hy
      · exact hx
      · exact le_trans ((List.pairwise_cons.1 h).1 y hy) hx
    · rw [if_neg hx]
      refine List.Pairwise.cons ?_ (ih (List.pairwise_cons.1 h).2)
      intro y hy
      rcases mem_insertByDesc.1 hy with rfl | hy
      · exact le_of_lt (lt_of_not_le hx)
      · exact (List.pairwise_cons.1 h).1 y hy

theorem sortByDesc_sorted {α : Type} (key : α → ℚ) (l : List α) :
    (sortByDesc key l).Pairwise (fun a b => key b ≤ key a) := by
  induction l with
  | nil => simp [sortByDesc]
  | cons x xs ih => exact insertByDesc_sorted ih

/-! # `vector_store.search` (vector_store.py lines 240–291)

The external index query (`col.query`, line 261) is modelled by its result:
the list of fetched `(metadata, distance)` candidate pairs together with the
parallel `documents` list.  Everything after that call is embedded:
similarity conversion with rounding (line 275), URL-level deduplication
keeping the higher score (lines 267–287, an insertion-ordered dict whose
update preserves position), and descending sort plus truncation
(lines 290–291). -/

structure PageMeta where
  url : String
  title : List Char
  tab_id : Int
  favicon : String
deriving DecidableEq

/-- A result dict.  `vector_store.search` builds it with url/title/tab_id/
favicon/score and optional text; the reranker later adds `final_score` and
`rerank_score` to the same dict, so they appear here as optional fields
(absent = `none`). -/
structure Doc where
  url : String
  title : List Char
  tab_id : Int
  favicon : String
  score : ℚ
  text : Option (List Char) := none
  final_score : Option ℚ := none
  rerank_score : Option ℚ := none
deriving DecidableEq

/-- The item built at lines 278–286: `score = round(1 - dist, 4)`, text set
only when `include_text` and the documents list reaches index `i`. -/
def mkSearchItem (include_text : Bool) (documents : List (List Char)) (i : Nat)
    (meta : PageMeta) (dist : ℚ) : Doc :=
  { url := meta.url, title := meta.title, tab_id := meta.tab_id, favicon := meta.favicon,
    score := round4 (1 - dist),
    text := if include_text ∧ i < documents.length then documents[i]? else none }

/-- The deduplication loop of lines 273–287 over the fetched candidates:
`seen_urls` is an insertion-ordered dict from URL to item; a URL not yet seen
is appended, a higher-scoring chunk replaces the stored item in place. -/
def searchDedup (include_text : Bool) (documents : List (List Char)) :
    Nat → List (PageMeta × ℚ) → List Doc → List Doc
  | _, [], seen => seen
  | i, (meta, dist) :: rest, seen =>
    searchDedup include_text documents (i + 1) rest
      (match seen.find? (fun it => it.url == meta.url) with
       | none => seen ++ [mkSearchItem include_text documents i meta dist]
       | some prev =>
         if prev.score < round4 (1 - dist) then
           seen.map (fun it =>
             if it.url == meta.url then mkSearchItem include_text documents i meta dist else it)
         else seen)

/-- `vector_store.search` after the index query: dedup, sort by score
descending (Python `sorted` is stable), truncate to `top_k` (lines 290–291). -/
def vs_search (candidates : List (PageMeta × ℚ)) (documents : List (List Char))
    (top_k : Nat) (include_text : Bool) : List Doc :=
  (sortByDesc Doc.score (searchDedup include_text documents 0 candidates [])).take top_k

/-- A result carries, for its URL, the maximal similarity over all fetched
candidate chunks of that URL, computed as `round(1 - distance, 4)`. -/
def BestScoreFor (candidates : List (PageMeta × ℚ)) (it : Doc) : Prop :=
  (∃ md ∈ candidates, md.1.url = it.url ∧ it.score = round4 (1 - md.2)) ∧
  (∀ md ∈ candidates, md.1.url = it.url → round4 (1 - md.2) ≤ it.score)

/-- Invariant of the deduplication loop: with candidates `processed` consumed
so far, every stored item carries the best score for its URL, every processed
URL is represented, and stored URLs are pairwise distinct. -/
def DedupInv (processed : List (PageMeta × ℚ)) (seen : List Doc) : Prop :=
  (∀ it ∈ seen, BestScoreFor processed it) ∧
  (∀ md ∈ processed, ∃ it ∈ seen, it.url = md.1.url) ∧
  (seen.map Doc.url).Nodup

theorem mkSearchItem_url (include_text : Bool) (documents : List (List Char)) (i : Nat)
    (meta : PageMeta) (dist : ℚ) :
    (mkSearchItem include_text documents i meta dist).url = meta.url := rfl

theorem dedupStep_inv (include_text : Bool) (documents : List (List Char)) (i : Nat)
    (meta : PageMeta) (dist : ℚ) (processed : List (PageMeta × ℚ)) (seen : List Doc)
    (h : DedupInv processed seen) :
    DedupInv (processed ++ [(meta, dist)])
      (match seen.find? (fun it => it.url == meta.url) with
       | none => seen ++ [mkSearchItem include_text documents i meta dist]
       | some prev =>
         if prev.score < round4 (1 - dist) then
           seen.map (fun it =>
             if it.url == meta.url then mkSearchItem include_text documents i meta dist else it)
         else seen) := by
  obtain ⟨hbest, hrep, hnodup⟩ := h
  cases hf : seen.find? (fun it => it.url == meta.url) with
  | none =>
    have hnone : ∀ it ∈ seen, it.url ≠ meta.url := by
      intro it hit
      have := (List.find?_eq_none.1 hf) it hit
      simpa [beq_iff_eq] using this
    refine ⟨?_, ?_, ?_⟩
    · intro it hit
      rcases List.mem_append.1 hit with hit | hit
      · obtain ⟨⟨md0, hmd0, hu0, hs0⟩, hub⟩ := hbest it hit
        refine ⟨⟨md0, List.mem_append_left _ hmd0, hu0, hs0⟩, ?_⟩
        intro md2 hmd2 hu2
        rcases List.mem_append.1 hmd2 with hmd2 | hmd2
        · exact hub md2 hmd2 hu2
        · simp only [List.mem_singleton] at hmd2
          subst hmd2
          exact absurd hu2.symm (hnone it hit)
      · simp only [List.mem_singleton] at hit
        subst hit
        refine ⟨⟨(meta, dist), List.mem_append_right _ (by simp), rfl, rfl⟩, ?_⟩
        intro md2 hmd2 hu2
        rcases List.mem_append.1 hmd2 with hmd2 | hmd2
        · obtain ⟨it0, hit0, hu0⟩ := hrep md2 hmd2
          rw [mkSearchItem_url] at hu2
          exact absurd (hu0.trans hu2) (hnone it0 hit0)
        · simp only [List.mem_singleton] at hmd2
          subst hmd2
          exact le_refl _
    · intro md2 hmd2
      rcases List.mem_append.1 hmd2 with hmd2 | hmd2
      · obtain ⟨it0, hit0, hu0⟩ := hrep md2 hmd2
        exact ⟨it0, List.mem_append_left _ hit0, hu0⟩
      · simp only [List.mem_singleton] at hmd2
        subst hmd2
        exact ⟨mkSearchItem include_text documents i meta dist,
          List.mem_append_right _ (by simp), rfl⟩
    · rw [List.map_append]
      rw [List.nodup_append]
      refine ⟨hnodup, by simp, ?_⟩
      intro u hu
      simp only [List.map_cons, List.map_nil, mkSearchItem_url, List.mem_singleton]
      obtain ⟨it0, hit0, hu0⟩ := List.mem_map.1 hu
      intro hcontra
      exact hnone it0 hit0 (hu0 ▸ hcontra)
  | some prev =>
    have hprev_mem : prev ∈ seen := List.mem_of_find?_eq_some hf
    have hprev_url : prev.url = meta.url := by
      have := List.find?_some hf
      simpa [beq_iff_eq] using this
    have huniq : ∀ it ∈ seen, it.url = meta.url → it = prev := by
      intro it hit hu
      exact List.inj_on_of_nodup_map hnodup hit hprev_mem (hu.trans hprev_url.symm)
    show DedupInv (processed ++ [(meta, dist)])
      (if prev.score < round4 (1 - dist) then
        seen.map (fun it =>
          if it.url == meta.url then mkSearchItem include_text documents i meta dist else it)
      else seen)
    by_cases hlt : prev.score < round4 (1 - dist)
    · rw [if_pos hlt]
      have hrepurl : ∀ it ∈ seen,
          (if it.url == meta.url then mkSearchItem include_text documents i meta dist else it).url
            = it.url := by
        intro it hit
        by_cases hu : it.url = meta.url
        · rw [if_pos (by simpa [beq_iff_eq] using hu), mkSearchItem_url, hu]
        · rw [if_neg (by simpa [beq_iff_eq] using hu)]
      have hmapurl :
          (seen.map (fun it =>
            if it.url == meta.url then mkSearchItem include_text documents i meta dist else it)).map
              Doc.url = seen.map Doc.url := by
        rw [List.map_map]
        exact List.map_congr_left hrepurl
      refine ⟨?_, ?_, ?_⟩
      · intro it' hit'
        obtain ⟨it, hit, rfl⟩ := List.mem_map.1 hit'
        by_cases hu : it.url = meta.url
        · rw [if_pos (by simpa [beq_iff_eq] using hu)]
          refine ⟨⟨(meta, dist), List.mem_append_right _ (by simp), rfl, rfl⟩, ?_⟩
          intro md2 hmd2 hu2
          rcases List.mem_append.1 hmd2 with hmd2 | hmd2
          · have hit_eq : it = prev := huniq it hit hu
            rw [mkSearchItem_url] at hu2
            have h1 : round4 (1 - md2.2) ≤ it.score :=
              (hbest it hit).2 md2 hmd2 (hu2.trans hu.symm)
            have h2 : it.score < round4 (1 - dist) := hit_eq ▸ hlt
            exact le_trans h1 (le_of_lt h2)
          · simp only [List.mem_singleton] at hmd2
            subst hmd2
            exact le_refl _
        · rw [if_neg (by simpa [beq_iff_eq] using hu)]
          obtain ⟨⟨md0, hmd0, hu0, hs0⟩, hub⟩ := hbest it hit
          refine ⟨⟨md0, List.mem_append_left _ hmd0, hu0, hs0⟩, ?_⟩
          intro md2 hmd2 hu2
          rcases List.mem_append.1 hmd2 with hmd2 | hmd2
          · exact hub md2 hmd2 hu2
          · simp only [List.mem_singleton] at hmd2
            subst hmd2
            exact absurd hu2.symm hu
      · intro md2 hmd2
        rcases List.mem_append.1 hmd2 with hmd2 | hmd2
        · obtain ⟨it0, hit0, hu0⟩ := hrep md2 hmd2
          refine ⟨(if it0.url == meta.url then
              mkSearchItem include_text documents i meta dist else it0),
            List.mem_map.2 ⟨it0, hit0, rfl⟩, ?_⟩
          rw [hrepurl it0 hit0, hu0]
        · simp only [List.mem_singleton] at hmd2
          subst hmd2
          refine ⟨mkSearchItem include_text documents i meta dist,
            List.mem_map.2 ⟨prev, hprev_mem, if_pos (by simpa [beq_iff_eq] using hprev_url)⟩,
            rfl⟩
      · rw [hmapurl]
        exact hnodup
    · rw [if_neg hlt]
      refine ⟨?_, ?_, hnodup⟩
      · intro it hit
        obtain ⟨⟨md0, hmd0, hu0, hs0⟩, hub⟩ := hbest it hit
        refine ⟨⟨md0, List.mem_append_left _ hmd0, hu0, hs0⟩, ?_⟩
        intro md2 hmd2 hu2
        rcases List.mem_append.1 hmd2 with hmd2 | hmd2
        · exact hub md2 hmd2 hu2
        · simp only [List.mem_singleton] at hmd2
          subst hmd2
          have hit_eq : it = prev := huniq it hit hu2.symm
          subst hit_eq
          exact le_of_not_lt hlt
      · intro md2 hmd2
        rcases List.mem_append.1 hmd2 with hmd2 | hmd2
        · exact hrep md2 hmd2
        · simp only [List.mem_singleton] at hmd2
          subst hmd2
          exact ⟨prev, hprev_mem, hprev_url⟩

theorem searchDedup_inv (include_text : Bool) (documents : List (List Char)) :
    ∀ (rest : List (PageMeta × ℚ)) (i : Nat) (processed : List (PageMeta × ℚ)) (seen : List Doc),
      DedupInv processed seen →
      DedupInv (processed ++ rest) (searchDedup include_text documents i rest seen) := by
  intro rest
  induction rest with
  | nil => intro i processed seen h; simpa [searchDedup] using h
  | cons md rest ih =>
    intro i processed seen h
    obtain ⟨meta, dist⟩ := md
    have heq : searchDedup include_text documents i ((meta, dist) :: rest) seen =
        searchDedup include_text documents (i + 1) rest
          (match seen.find? (fun it => it.url == meta.url) with
           | none => seen ++ [mkSearchItem include_text documents i meta dist]
           | some prev =>
             if prev.score < round4 (1 - dist) then
               seen.map (fun it =>
                 if it.url == meta.url then mkSearchItem include_text documents i meta dist
                 else it)
             else seen) := rfl
    rw [heq]
    have hstep := dedupStep_inv include_text documents i meta dist processed seen h
    have := ih (i + 1) (processed ++ [(meta, dist)]) _ hstep
    simpa [List.append_assoc] using this

/-! ## Claim C3 — `vector_store.search` deduplicates per URL, keeps the best
chunk score, sorts descending and truncates -/

/-- C3: for every fetched candidate set, every `top_k` and either value of
`include_text`, `vector_store.search` returns at most `top_k` results, no two
of which share a URL; each result's score is the maximum over the fetched
candidates of that URL of `round(1 - cosine_distance, 4)`; and the list is
sorted by score in descending order. -/
theorem C3_search_per_url_best_sorted (candidates : List (PageMeta × ℚ))
    (documents : List (List Char)) (top_k : Nat) (include_text : Bool) :
    (vs_search candidates documents top_k include_text).length ≤ top_k ∧
    ((vs_search candidates documents top_k include_text).map Doc.url).Nodup ∧
    (∀ it ∈ vs_search candidates documents top_k include_text, BestScoreFor candidates it) ∧
    (vs_search candidates documents top_k include_text).Pairwise
      (fun a b => b.score ≤ a.score) := by
  have hinv := searchDedup_inv include_text documents candidates 0 [] []
    ⟨by simp, by simp, by simp⟩
  rw [List.nil_append] at hinv
  obtain ⟨hbest, hrep, hnodup⟩ := hinv
  have hperm := sortByDesc_perm Doc.score (searchDedup include_text documents 0 candidates [])
  refine ⟨List.length_take_le _ _, ?_, ?_, ?_⟩
  · have h1 : ((sortByDesc Doc.score
        (searchDedup include_text documents 0 candidates [])).map Doc.url).Nodup :=
      ((hperm.map Doc.url).symm).nodup hnodup
    exact ((List.take_sublist _ _).map Doc.url).nodup h1
  · intro it hit
    have hmem : it ∈ searchDedup include_text documents 0 candidates [] :=
      hperm.mem_iff.1 ((List.take_sublist _ _).subset hit)
    exact hbest it hmem
  · exact List.Pairwise.sublist (List.take_sublist _ _) (sortByDesc_sorted _ _)

/-! # The heuristic reranker (reranker_service.py lines 138–186)

`re.findall(r"\w+", s)` is modelled over ASCII word characters (alphanumeric
or underscore; all concrete inputs below are ASCII).  `term in text` is
contiguous-substring containment.  Python's `set()` of findall results is a
deduplicated list (counting over it is order-independent). -/

def isWordChar (c : Char) : Bool := c.isAlphanum || c == '_'

def findWordsAux : List Char → List Char → List (List Char)
  | [], cur => if cur = [] then [] else [cur.reverse]
  | c :: rest, cur =>
    if isWordChar c then findWordsAux rest (c :: cur)
    else if cur = [] then findWordsAux rest []
    else cur.reverse :: findWordsAux rest []

/-- `re.findall(r"\w+", s)`: the maximal runs of word characters. -/
def findWords (s : List Char) : List (List Char) := findWordsAux s []

def pyDedupAux {α : Type} [DecidableEq α] : List α → List α → List α
  | [], _ => []
  | x :: xs, seen => if x ∈ seen then pyDedupAux xs seen else x :: pyDedupAux xs (x :: seen)

/-- First-occurrence deduplication (`set(...)` for counting purposes,
`list(dict.fromkeys(...))` for the agent's URL list). -/
def pyDedup {α : Type} [DecidableEq α] (l : List α) : List α := pyDedupAux l []

def subMatch : List Char → List Char → Bool
  | [], _ => true
  | _ :: _, [] => false
  | a :: as, b :: bs => a == b && subMatch as bs

/-- Python `needle in haystack`: contiguous substring containment. -/
def containsSub (needle : List Char) : List Char → Bool
  | [] => subMatch needle []
  | c :: rest => subMatch needle (c :: rest) || containsSub needle rest

def digitsThenDot : List Char → Bool
  | [] => false
  | c :: rest => if c == '.' then true else if c.isDigit then digitsThenDot rest else false

/-- The list-marker pattern `^(\d+\.|-|•|\*|\[)` anchored at line start. -/
def listMarker : List Char → Bool
  | [] => false
  | c :: rest =>
    if c == '-' || c == '•' || c == '*' || c == '[' then true
    else if c.isDigit then digitsThenDot rest
    else false

/-- `text = doc.get("text", "") or doc.get("title", "")` (line 155): the
title stands in when the text is absent or empty. -/
def docText (d : Doc) : List Char :=
  match d.text with
  | some t => if t = [] then d.title else t
  | none => d.title

/-- Lines 162–163: split on newlines, strip each line, keep the non-empty
ones. -/
def docLines (text : List Char) : List (List Char) :=
  (((pyStrip text).splitOn '\n').map pyStrip).filter (fun l => l ≠ [])

/-- The body of the reranker's per-document loop (lines 153–183): sequential
penalty updates inside `if lines:`, then the keyword bonus, then
`final_score = score * penalty * bonus`. -/
def heurFinal (query_terms : List (List Char)) (d : Doc) : Doc :=
  let text := docText d
  let text_lower := text.map Char.toLower
  let lines := docLines text
  let penalty1 : ℚ := 1
  let penalty2 : ℚ :=
    if lines ≠ [] then
      if ((lines.map List.length).sum : ℚ) / (lines.length : ℚ) < 20 then penalty1 * 0.7
      else penalty1
    else penalty1
  let penalty3 : ℚ :=
    if lines ≠ [] then
      if ((lines.countP listMarker : ℚ)) / (lines.length : ℚ) > 0.5 then penalty2 * 0.6
      else penalty2
    else penalty2
  let term_matches := query_terms.countP (fun t => containsSub t text_lower)
  let bonus : ℚ := 1 + (term_matches : ℚ) * 0.05
  { d with final_score := some (d.score * penalty3 * bonus) }

/-- `reranker_service.rerank_by_heuristics` (lines 138–186): score every
document, sort by `final_score` descending (stable), truncate to `top_k`. -/
def rerank_by_heuristics (query : List Char) (documents : List Doc) (top_k : Nat) : List Doc :=
  (sortByDesc (fun d => d.final_score.getD 0)
    (documents.map (heurFinal (pyDedup (findWords (query.map Char.toLower)))))).take top_k

/-- The sequential penalty updates of the loop body equal one product of
independent factors: ×0.7 for short average line length, ×0.6 for a majority
of list-marker lines; the bonus is `1 + 0.05 ×` the number of distinct query
terms found in the text. -/
theorem heurFinal_final_score (qts : List (List Char)) (d : Doc) :
    (heurFinal qts d).final_score =
      some (d.score *
        ((if docLines (docText d) ≠ [] ∧
            (((docLines (docText d)).map List.length).sum : ℚ) <
              20 * ((docLines (docText d)).length : ℚ) then (0.7 : ℚ) else 1) *
         (if docLines (docText d) ≠ [] ∧
            ((docLines (docText d)).length : ℚ) <
              2 * ((docLines (docText d)).countP listMarker : ℚ) then (0.6 : ℚ) else 1)) *
        (1 + (qts.countP (fun t => containsSub t ((docText d).map Char.toLower)) : ℚ) * 0.05)) := by
  by_cases h0 : docLines (docText d) = []
  · simp only [heurFinal, h0, ne_eq, not_true_eq_false, if_false, false_and,
      Option.some.injEq]
    ring
  · have hnq : (0 : ℚ) < ((docLines (docText d)).length : ℚ) := by
      have := List.length_pos.2 h0
      exact_mod_cast this
    have hdiv1 : ((((docLines (docText d)).map List.length).sum : ℚ) /
        ((docLines (docText d)).length : ℚ) < 20) ↔
        ((((docLines (docText d)).map List.length).sum : ℚ) <
          20 * ((docLines (docText d)).length : ℚ)) := by
      rw [div_lt_iff hnq]
    have hdiv2 : (((docLines (docText d)).countP listMarker : ℚ) /
        ((docLines (docText d)).length : ℚ) > 0.5) ↔
        (((docLines (docText d)).length : ℚ) <
          2 * ((docLines (docText d)).countP listMarker : ℚ)) := by
      rw [gt_iff_lt, lt_div_iff hnq]
      constructor <;> intro h <;> linarith
    simp only [heurFinal, h0, ne_eq, not_false_eq_true, if_true, true_and,
      hdiv1, hdiv2, Option.some.injEq]
    split_ifs <;> ring

/-- Every output of the heuristic reranker is the scored copy of one of the
input documents. -/
theorem rerank_by_heuristics_mem (query : List Char) (documents : List Doc) (top_k : Nat) :
    ∀ r ∈ rerank_by_heuristics query documents top_k,
      ∃ d0 ∈ documents, r = heurFinal (pyDedup (findWords (query.map Char.toLower))) d0 := by
  intro r hr
  have h1 : r ∈ sortByDesc (fun d => d.final_score.getD 0)
      (documents.map (heurFinal (pyDedup (findWords (query.map Char.toLower))))) :=
    (List.take_sublist _ _).subset hr
  have h2 : r ∈ documents.map (heurFinal (pyDedup (findWords (query.map Char.toLower)))) :=
    (sortByDesc_perm _ _).mem_iff.1 h1
  obtain ⟨d0, hd0, hr0⟩ := List.mem_map.1 h2
  exact ⟨d0, hd0, hr0.symm⟩

/-! ## Claim C7 — the heuristic reranker's score formula -/

/-- C7: for every candidate document, the heuristic reranker sets
`final_score = original_similarity × penalty × bonus` with a 0.7 factor when
the average non-empty line length is under 20 and a 0.6 factor when more than
half of the non-empty lines match the list-marker pattern (the two rational
comparisons are stated in multiplied-out form), and
`bonus = 1 + 0.05 × #(distinct query terms found in the text)`; a document
whose text has 10 non-empty lines of which 6 carry a list marker receives the
0.6 factor; the result list is sorted by `final_score` descending and
truncated to `top_k`, and consists of scored copies of input documents. -/
theorem C7_heuristic_penalty_bonus (query : List Char) (top_k : Nat)
    (documents : List Doc) (d : Doc) :
    ((heurFinal (pyDedup (findWords (query.map Char.toLower))) d).final_score =
      some (d.score *
        ((if docLines (docText d) ≠ [] ∧
            (((docLines (docText d)).map List.length).sum : ℚ) <
              20 * ((docLines (docText d)).length : ℚ) then (0.7 : ℚ) else 1) *
         (if docLines (docText d) ≠ [] ∧
            ((docLines (docText d)).length : ℚ) <
              2 * ((docLines (docText d)).countP listMarker : ℚ) then (0.6 : ℚ) else 1)) *
        (1 + ((pyDedup (findWords (query.map Char.toLower))).countP
            (fun t => containsSub t ((docText d).map Char.toLower)) : ℚ) * 0.05))) ∧
    ((docLines (docText d)).length = 10 → (docLines (docText d)).countP listMarker = 6 →
      (heurFinal (pyDedup (findWords (query.map Char.toLower))) d).final_score =
        some (d.score *
          ((if (((docLines (docText d)).map List.length).sum : ℚ) <
              20 * ((docLines (docText d)).length : ℚ) then (0.7 : ℚ) else 1) * 0.6) *
          (1 + ((pyDedup (findWords (query.map Char.toLower))).countP
              (fun t => containsSub t ((docText d).map Char.toLower)) : ℚ) * 0.05))) ∧
    (rerank_by_heuristics query documents top_k).length ≤ top_k ∧
    (rerank_by_heuristics query documents top_k).Pairwise
      (fun a b => b.final_score.getD 0 ≤ a.final_score.getD 0) ∧
    (∀ r ∈ rerank_by_heuristics query documents top_k,
      ∃ d0 ∈ documents, r = heurFinal (pyDedup (findWords (query.map Char.toLower))) d0) := by
  refine ⟨heurFinal_final_score _ d, ?_, List.length_take_le _ _,
    List.Pairwise.sublist (List.take_sublist _ _) (sortByDesc_sorted _ _),
    rerank_by_heuristics_mem query documents top_k⟩
  intro h10 h6
  have h0 : docLines (docText d) ≠ [] := by
    intro hc
    rw [hc] at h10
    simp at h10
  rw [heurFinal_final_score]
  have hcond2 : docLines (docText d) ≠ [] ∧
      ((docLines (docText d)).length : ℚ) <
        2 * ((docLines (docText d)).countP listMarker : ℚ) := by
    refine ⟨h0, ?_⟩
    rw [h10, h6]
    norm_num
  rw [if_pos hcond2]
  have hfirst : (if docLines (docText d) ≠ [] ∧
      (((docLines (docText d)).map List.length).sum : ℚ) <
        20 * ((docLines (docText d)).length : ℚ) then (0.7 : ℚ) else 1) =
      (if (((docLines (docText d)).map List.length).sum : ℚ) <
        20 * ((docLines (docText d)).length : ℚ) then (0.7 : ℚ) else 1) := by
    simp [h0]
  rw [hfirst]

/-! # LLM configuration and keyword generation (llm_service.py) -/

structure LLMConfig where
  base_url : String
  api_key : String
  model : String
deriving DecidableEq

/-- `config and config.api_key`: a provider counts as configured only when a
config is present with a non-empty api_key. -/
def llmConfigured : Option LLMConfig → Bool
  | none => false
  | some c => !(c.api_key == "")

structure KwResult where
  keywords : List (List Char)
  error : Option String
deriving DecidableEq

def KW_ERROR_MSG : String := "LLM 未配置，请在设置中填写 API 信息"

/-- `llm_service.generate_keywords` (lines 96–146).  The unconfigured guard of
lines 102–103 is embedded; the HTTP request and response parsing of the
configured path are external collaborators, modelled by their outcome
`external` (which already accounts for the catch-all fallbacks of
lines 140–146). -/
def generate_keywords (cfg : Option LLMConfig) (external : KwResult) : KwResult :=
  if llmConfigured cfg then external
  else { keywords := [], error := some KW_ERROR_MSG }

/-! # The reranker entry point and the `/llm-search` route -/

/-- `reranker_service.rerank` (lines 189–215).  The LLM cross-encoder
(`rerank_with_llm`) talks to the HTTP provider; it is modelled by the function
`rerankLLMFn`, reached only when `use_llm` is set and a provider is
configured; otherwise the heuristic reranker runs. -/
def rerank (cfg : Option LLMConfig) (rerankLLMFn : List Char → List Doc → Nat → List Doc)
    (query : List Char) (documents : List Doc) (top_k : Nat) (use_llm : Bool) : List Doc :=
  if documents = [] then []
  else if use_llm ∧ llmConfigured cfg then rerankLLMFn query documents top_k
  else rerank_by_heuristics query documents top_k

/-- The recall merge of routes.py lines 99–108: for each keyword's search
results, keep per URL the highest-scoring result (insertion-ordered dict,
in-place update). -/
def recallMerge (searchFn : List Char → Nat → List Doc) (k : Nat) :
    List (List Char) → List Doc → List Doc
  | [], seen => seen
  | kw :: rest, seen =>
    recallMerge searchFn k rest
      ((searchFn kw k).foldl (fun s r =>
        match s.find? (fun it => it.url == r.url) with
        | none => s ++ [r]
        | some prev =>
          if prev.score < r.score then
            s.map (fun it => if it.url == r.url then r else it)
          else s) seen)

/-- The response cleanup of routes.py lines 122–127: when a `final_score` is
present it becomes the client score divided by 100, and the internal `text`
and `rerank_score` fields are popped. -/
def cleanDoc (d : Doc) : Doc :=
  match d.final_score with
  | some f => { d with score := f / 100, final_score := none, text := none, rerank_score := none }
  | none => { d with text := none, rerank_score := none }

structure LLMSearchResponse where
  keywords : List (List Char)
  results : List Doc
  llm_error : Option String
deriving DecidableEq

/-- `routes.llm_search` (routes.py lines 77–133): keyword generation with
raw-query fallback, per-keyword recall through `vector_store.search`
(modelled by `searchFn`, the keyword ↦ results function of the index),
URL-merge, stable descending sort, rerank (with `use_llm=True`), cleanup. -/
def llm_search (cfg : Option LLMConfig) (kwExternal : KwResult)
    (rerankLLMFn : List Char → List Doc → Nat → List Doc)
    (searchFn : List Char → Nat → List Doc)
    (query : List Char) (top_k : Nat) : LLMSearchResponse :=
  { keywords :=
      if (generate_keywords cfg kwExternal).keywords = [] then [query]
      else (generate_keywords cfg kwExternal).keywords,
    results :=
      (rerank cfg rerankLLMFn query
        (sortByDesc Doc.score
          (recallMerge searchFn (min (top_k * 3) 20)
            (if (generate_keywords cfg kwExternal).keywords = [] then [query]
             else (generate_keywords cfg kwExternal).keywords) []))
        top_k true).map cleanDoc,
    llm_error := (generate_keywords cfg kwExternal).error }

/-! # The reasoning agent (agent_tools.py, agent_service.py)

The completion provider is an external collaborator: one agent run consumes a
script of LLM responses (one per reasoning step; a script entry models the
outcome of `_call_llm`, including its `json.loads` of each tool call's
argument string — `args = none` models malformed JSON).  The
embedding/index-backed tools (`execute_search_tabs`, `execute_read_tab`,
`execute_list_tabs`) wrap external state, so their results are given by a
`ToolEnv`; `execute_batch_restore` is pure and embedded from the source.
`run_agent` is an async generator: it returns the list of events yielded, and
`some e` when an uncaught exception `e` aborted it mid-run. -/

/-- A parsed tool-argument dict: which keys are present, with their values. -/
structure ToolArgs where
  query : Option String := none
  top_k : Option Nat := none
  url : Option String := none
  urls : Option (List String) := none
  reason : Option String := none
deriving DecidableEq

def emptyArgs : ToolArgs := {}

/-- The fields of a tool-result dict that the agent loop inspects (`error`,
`action`, `urls`, `count`, `reason`).  The payloads of search/read/list
results are opaque at this level. -/
structure ToolResult where
  error : Option String := none
  action : Option String := none
  urls : List String := []
  count : Option Nat := none
  reason : Option String := none
deriving DecidableEq

/-- The index-backed tool implementations, as functions from their parsed
arguments to their result dicts. -/
structure ToolEnv where
  searchTabs : String → Nat → ToolResult
  readTab : String → ToolResult
  listTabs : ToolResult

/-- `agent_tools.execute_batch_restore` (lines 200–210): an empty URL list is
an error dict; otherwise the action is echoed back for the frontend. -/
def execute_batch_restore (urls : List String) (reason : String) : ToolResult :=
  if urls = [] then { error := some "未指定要恢复的 URL" }
  else { action := some "batch_restore", urls := urls, count := some urls.length,
         reason := some reason }

/-- `agent_tools.dispatch_tool` (lines 216–233).  A required key accessed as
`arguments["..."]` raises `KeyError` when absent — no caller catches it, so it
is an `Except.error`; `.get` keys fall back to their defaults.  An unknown
tool name yields an error payload dict (a normal `ok` value, line 233). -/
def dispatch_tool (env : ToolEnv) (name : String) (args : ToolArgs) :
    Except String ToolResult :=
  if name = "search_tabs" then
    match args.query with
    | none => Except.error "KeyError: query"
    | some q => Except.ok (env.searchTabs q (args.top_k.getD 5))
  else if name = "read_tab" then
    match args.url with
    | none => Except.error "KeyError: url"
    | some u => Except.ok (env.readTab u)
  else if name = "list_tabs" then Except.ok env.listTabs
  else if name = "batch_restore" then
    match args.urls with
    | none => Except.error "KeyError: urls"
    | some us => Except.ok (execute_batch_restore us (args.reason.getD ""))
  else Except.ok { error := some ("未知工具: " ++ name) }

/-- The events `run_agent` yields.  The regular answer of line 181 carries no
`truncated` key — modelled as `truncated = false`; the step-exhaustion answer
of line 188 carries `truncated = true`. -/
inductive AgentEvent where
  | thinking (step : Nat)
  | tool_call (step : Nat) (tool : String) (args : ToolArgs)
  | tool_result (step : Nat) (tool : String)
  | action (urls : List String) (count : Nat)
  | answer (content : String) (steps_used : Nat) (truncated : Bool)
  | error (message : String)
deriving DecidableEq

def isActionEv : AgentEvent → Bool
  | AgentEvent.action _ _ => true
  | _ => false

def isAnswerEv : AgentEvent → Bool
  | AgentEvent.answer _ _ _ => true
  | _ => false

/-- One requested tool call of an LLM response; `args` is the outcome of
`json.loads` on its arguments string (`none` = malformed JSON). -/
structure ToolCallReq where
  id : String
  name : String
  args : Option ToolArgs
deriving DecidableEq

structure LLMMessage where
  content : String := ""
  tool_calls : List ToolCallReq := []
deriving DecidableEq

/-- The outcome of one `_call_llm`: a transport/HTTP failure (the `except` of
line 107) or a choice message. -/
inductive LLMResult where
  | failure (msg : String)
  | success (msg : LLMMessage)
deriving DecidableEq

def MAX_STEPS : Nat := 15

def AGENT_CFG_MSG : String := "LLM 未配置，请在设置中填写 API 信息后再使用 Agent 功能"

def TRUNCATED_MSG : String := "抱歉，我进行了多步推理但未能得出最终结论。请尝试更具体的问题。"

/-- The scripted response for a step; a script shorter than the run models
the remaining calls failing at the transport. -/
def getResponse (script : List LLMResult) (stepIdx : Nat) : LLMResult :=
  (script.get? stepIdx).getD (LLMResult.failure "transport")

/-- The per-tool-call loop of agent_service.py lines 124–160: parse arguments
(malformed JSON degrades to an empty dict, lines 130–133), yield `tool_call`,
dispatch, collect `batch_restore` actions (lines 146–147), yield
`tool_result`.  An uncaught `KeyError` from the dispatch aborts the
generator: the events yielded so far stand, and the exception escapes. -/
def processToolCalls (env : ToolEnv) (stepIdx : Nat) :
    List ToolCallReq → List (List String) →
    List AgentEvent × List (List String) × Option String
  | [], restore => ([], restore, none)
  | tc :: rest, restore =>
    match dispatch_tool env tc.name (tc.args.getD emptyArgs) with
    | Except.error e =>
      ([AgentEvent.tool_call (stepIdx + 1) tc.name (tc.args.getD emptyArgs)], restore, some e)
    | Except.ok res =>
      (AgentEvent.tool_call (stepIdx + 1) tc.name (tc.args.getD emptyArgs) ::
        AgentEvent.tool_result (stepIdx + 1) tc.name ::
        (processToolCalls env stepIdx rest
          (if tc.name = "batch_restore" ∧ res.action = some "batch_restore"
           then restore ++ [res.urls] else restore)).1,
       (processToolCalls env stepIdx rest
          (if tc.name = "batch_restore" ∧ res.action = some "batch_restore"
           then restore ++ [res.urls] else restore)).2)

/-- The ReAct loop of `run_agent` (agent_service.py lines 98–192) running on
the scripted responses: yield `thinking`, call the LLM (a failure yields an
`error` event and ends the run), process tool calls, and on a tool-call-free
response flush the accumulated deduplicated restore URLs as one `action`
event before the final `answer`; when the step budget runs out, yield the
truncated answer. -/
def runAgentFrom (env : ToolEnv) (script : List LLMResult) :
    Nat → Nat → List (List String) → List AgentEvent × Option String
  | 0, _, _ => ([AgentEvent.answer TRUNCATED_MSG MAX_STEPS true], none)
  | stepsLeft + 1, stepIdx, restore =>
    match getResponse script stepIdx with
    | LLMResult.failure msg =>
      ([AgentEvent.thinking (stepIdx + 1),
        AgentEvent.error ("LLM 调用失败: " ++ msg)], none)
    | LLMResult.success msg =>
      if msg.tool_calls = [] then
        ([AgentEvent.thinking (stepIdx + 1)] ++
          (if restore ≠ [] then
            [AgentEvent.action (pyDedup restore.flatten) (pyDedup restore.flatten).length]
           else []) ++
          [AgentEvent.answer msg.content (stepIdx + 1) false], none)
      else
        match (processToolCalls env stepIdx msg.tool_calls restore).2.2 with
        | some e =>
          (AgentEvent.thinking (stepIdx + 1) ::
            (processToolCalls env stepIdx msg.tool_calls restore).1, some e)
        | none =>
          (AgentEvent.thinking (stepIdx + 1) ::
            ((processToolCalls env stepIdx msg.tool_calls restore).1 ++
              (runAgentFrom env script stepsLeft (stepIdx + 1)
                (processToolCalls env stepIdx msg.tool_calls restore).2.1).1),
           (runAgentFrom env script stepsLeft (stepIdx + 1)
             (processToolCalls env stepIdx msg.tool_calls restore).2.1).2)

/-- `agent_service.run_agent` (lines 76–192): the configuration guard of
lines 81–86, then the loop.  `user_query` only seeds the conversation sent to
the external provider, so it does not influence the event stream beyond the
script. -/
def run_agent (cfg : Option LLMConfig) (env : ToolEnv) (user_query : String)
    (script : List LLMResult) : List AgentEvent × Option String :=
  if llmConfigured cfg then runAgentFrom env script MAX_STEPS 0 []
  else ([AgentEvent.error AGENT_CFG_MSG], none)

/-! ## Concrete fixtures used by the agent claims -/

def envEx : ToolEnv :=
  { searchTabs := fun _ _ => {}, readTab := fun _ => {}, listTabs := {} }

def cfgEx : LLMConfig := { base_url := "http://x", api_key := "k", model := "m" }

/-- Arguments of a well-formed `batch_restore` call. -/
def brArgs (urls : List String) (reason : String) : ToolArgs :=
  { urls := some urls, reason := some reason }

/-- A scripted LLM response carrying a single well-formed `batch_restore`
tool call. -/
def brResponse (id : String) (urls : List String) (reason : String) : LLMResult :=
  LLMResult.success { tool_calls := [{ id := id, name := "batch_restore", args := some (brArgs urls reason) }] }

/-- A scripted LLM response carrying a single tool call whose arguments
string is not valid JSON. -/
def badArgsResponse (id : String) (tool : String) : LLMResult :=
  LLMResult.success { tool_calls := [{ id := id, name := tool, args := none }] }

/-- A scripted tool-call-free answer. -/
def answerResponse (content : String) : LLMResult :=
  LLMResult.success { content := content }

/-! ## Claim C5 — malformed tool-call arguments

Parsing does degrade to an empty argument dict (lines 130–133), but the claim
that dispatch with empty arguments "does not abort the loop for any of the
four tool names" is FALSE: `dispatch_tool` reads `arguments["query"]`,
`arguments["url"]` and `arguments["urls"]` unconditionally (agent_tools.py
lines 218–231), so for `search_tabs`, `read_tab` and `batch_restore` an empty
dict raises a `KeyError` that `run_agent` does not catch; only `list_tabs`
(which takes no arguments) and unknown tool names proceed. -/

/-- C5 counterexample: a model response calling `search_tabs` with malformed
JSON arguments.  The arguments degrade to the empty dict (visible in the
`tool_call` event), but the dispatch raises and the run aborts with the
uncaught `KeyError` — no `tool_result`, no further events. -/
theorem C5_counterexample_empty_args_abort :
    run_agent (some cfgEx) envEx "q" [badArgsResponse "1" "search_tabs"] =
      ([AgentEvent.thinking 1, AgentEvent.tool_call 1 "search_tabs" emptyArgs],
       some "KeyError: query") := by decide

/-- C5 (amended): malformed JSON arguments are parsed to the empty argument
dict, and dispatching on the empty dict raises `KeyError` for `search_tabs`,
`read_tab` and `batch_restore`; it succeeds only for `list_tabs`, and unknown
tool names produce an error payload dict rather than an exception. -/
theorem C5_amended_empty_args_dispatch (env : ToolEnv) :
    dispatch_tool env "search_tabs" emptyArgs = Except.error "KeyError: query" ∧
    dispatch_tool env "read_tab" emptyArgs = Except.error "KeyError: url" ∧
    dispatch_tool env "batch_restore" emptyArgs = Except.error "KeyError: urls" ∧
    dispatch_tool env "list_tabs" emptyArgs = Except.ok env.listTabs ∧
    (∀ name : String, name ≠ "search_tabs" → name ≠ "read_tab" →
      name ≠ "list_tabs" → name ≠ "batch_restore" →
      dispatch_tool env name emptyArgs =
        Except.ok { error := some ("未知工具: " ++ name) }) := by
  refine ⟨rfl, rfl, rfl, rfl, ?_⟩
  intro name h1 h2 h3 h4
  unfold dispatch_tool
  rw [if_neg h1, if_neg h2, if_neg h3, if_neg h4]

/-! ## Claim C6 — accumulated `batch_restore` URLs flushed as one action -/

/-- C6: in a configured run whose model calls `batch_restore(["a","b"])`,
then `batch_restore(["b","c"])`, then answers without tool calls, exactly one
`action` event is emitted, immediately before the `answer` event, carrying
the deduplicated insertion-ordered URL list `["a","b","c"]` and count 3. -/
theorem C6_batch_restore_dedup_action (c : LLMConfig) (h : ¬ c.api_key = "")
    (env : ToolEnv) (q content id1 id2 r1 r2 : String) :
    run_agent (some c) env q
      [brResponse id1 ["a","b"] r1, brResponse id2 ["b","c"] r2, answerResponse content] =
      ([AgentEvent.thinking 1,
        AgentEvent.tool_call 1 "batch_restore" (brArgs ["a","b"] r1),
        AgentEvent.tool_result 1 "batch_restore",
        AgentEvent.thinking 2,
        AgentEvent.tool_call 2 "batch_restore" (brArgs ["b","c"] r2),
        AgentEvent.tool_result 2 "batch_restore",
        AgentEvent.thinking 3,
        AgentEvent.action ["a","b","c"] 3,
        AgentEvent.answer content 3 false], none) := by
  have hc : llmConfigured (some c) = true := by
    simp [llmConfigured, h]
  unfold run_agent
  rw [if_pos hc]
  rfl

theorem C6_batch_restore_dedup_action_witness :
    run_agent (some cfgEx) envEx "q"
      [brResponse "1" ["a","b"] "r1", brResponse "2" ["b","c"] "r2", answerResponse "done"] =
      ([AgentEvent.thinking 1,
        AgentEvent.tool_call 1 "batch_restore" (brArgs ["a","b"] "r1"),
        AgentEvent.tool_result 1 "batch_restore",
        AgentEvent.thinking 2,
        AgentEvent.tool_call 2 "batch_restore" (brArgs ["b","c"] "r2"),
        AgentEvent.tool_result 2 "batch_restore",
        AgentEvent.thinking 3,
        AgentEvent.action ["a","b","c"] 3,
        AgentEvent.answer "done" 3 false], none) :=
  C6_batch_restore_dedup_action cfgEx (by decide) envEx "q" "done" "1" "2" "r1" "r2"

/-! ## Claim C9 — step exhaustion discards pending restores; an action event
only ever immediately precedes a non-truncated answer -/

theorem no_action_decomp {evs l₁ t : List AgentEvent} {u : List String} {n : Nat}
    (hno : ∀ e ∈ evs, isActionEv e = false)
    (h : evs = l₁ ++ AgentEvent.action u n :: t) : False := by
  have hmem : AgentEvent.action u n ∈ evs := by
    rw [h]
    exact List.mem_append_right _ (by simp)
  have := hno _ hmem
  simp [isActionEv] at this

theorem action_split (pre rest : List AgentEvent) {l₁ t : List AgentEvent}
    {u : List String} {n : Nat}
    (hpre : ∀ e ∈ pre, isActionEv e = false)
    (h : pre ++ rest = l₁ ++ AgentEvent.action u n :: t) :
    ∃ l₂, rest = l₂ ++ AgentEvent.action u n :: t := by
  rcases List.append_eq_append_iff.1 h with ⟨a2, _, ha2⟩ | ⟨c2, hc1, hc2⟩
  · exact ⟨a2, ha2⟩
  · cases c2 with
    | nil =>
      exact ⟨[], by simpa using hc2.symm⟩
    | cons x c3 =>
      rw [List.cons_append] at hc2
      injection hc2 with h1 _
      have hx : x ∈ pre := by
        rw [hc1]
        exact List.mem_append_right _ (by simp)
      have := hpre x hx
      rw [← h1] at this
      simp [isActionEv] at this

theorem processToolCalls_no_action_answer (env : ToolEnv) (stepIdx : Nat) :
    ∀ (calls : List ToolCallReq) (restore : List (List String)),
      ∀ e ∈ (processToolCalls env stepIdx calls restore).1,
        isActionEv e = false ∧ isAnswerEv e = false := by
  intro calls
  induction calls with
  | nil =>
    intro restore e he
    simp [processToolCalls] at he
  | cons tc rest ih =>
    intro restore e he
    simp only [processToolCalls] at he
    cases hd : dispatch_tool env tc.name (tc.args.getD emptyArgs) with
    | error err =>
      rw [hd] at he
      simp only [List.mem_singleton] at he
      subst he
      exact ⟨rfl, rfl⟩
    | ok res =>
      rw [hd] at he
      simp only [List.mem_cons] at he
      rcases he with rfl | rfl | he
      · exact ⟨rfl, rfl⟩
      · exact ⟨rfl, rfl⟩
      · exact ih _ e he

theorem processToolCalls_all_ok (env : ToolEnv) (stepIdx : Nat) :
    ∀ (calls : List ToolCallReq) (restore : List (List String)),
      (∀ tc ∈ calls, ∃ res,
        dispatch_tool env tc.name (tc.args.getD emptyArgs) = Except.ok res) →
      (processToolCalls env stepIdx calls restore).2.2 = none := by
  intro calls
  induction calls with
  | nil => intro restore _; rfl
  | cons tc rest ih =>
    intro restore hok
    obtain ⟨res, hres⟩ := hok tc (by simp)
    simp only [processToolCalls]
    rw [hres]
    exact ih _ (fun tc2 h2 => hok tc2 (by simp [h2]))

theorem runAgentFrom_exhaust (env : ToolEnv) (script : List LLMResult) :
    ∀ (stepsLeft stepIdx : Nat) (restore : List (List String)),
      (∀ i, stepIdx ≤ i → i < stepIdx + stepsLeft →
        ∃ msg, script.get? i = some (LLMResult.success msg) ∧ ¬ msg.tool_calls = [] ∧
          ∀ tc ∈ msg.tool_calls,
            ∃ res, dispatch_tool env tc.name (tc.args.getD emptyArgs) = Except.ok res) →
      (∀ e ∈ (runAgentFrom env script stepsLeft stepIdx restore).1, isActionEv e = false) ∧
      (runAgentFrom env script stepsLeft stepIdx restore).2 = none ∧
      (runAgentFrom env script stepsLeft stepIdx restore).1.getLast? =
        some (AgentEvent.answer TRUNCATED_MSG MAX_STEPS true) := by
  intro stepsLeft
  induction stepsLeft with
  | zero =>
    intro stepIdx restore _
    refine ⟨?_, rfl, rfl⟩
    intro e he
    simp only [runAgentFrom, List.mem_singleton] at he
    subst he
    rfl
  | succ n ih =>
    intro stepIdx restore hscript
    obtain ⟨msg, hmsg, hne, hok⟩ := hscript stepIdx (le_refl _) (by omega)
    have hresp : getResponse script stepIdx = LLMResult.success msg := by
      unfold getResponse
      rw [hmsg]
      rfl
    have hab := processToolCalls_all_ok env stepIdx msg.tool_calls restore hok
    obtain ⟨ihA, ihB, ihC⟩ := ih (stepIdx + 1)
      (processToolCalls env stepIdx msg.tool_calls restore).2.1
      (fun i h1 h2 => hscript i (by omega) (by omega))
    simp only [runAgentFrom, hresp, if_neg hne, hab]
    have hne2 : (runAgentFrom env script n (stepIdx + 1)
        (processToolCalls env stepIdx msg.tool_calls restore).2.1).1 ≠ [] := by
      intro hnil
      rw [hnil] at ihC
      simp at ihC
    refine ⟨?_, ihB, ?_⟩
    · intro e he
      simp only [List.mem_cons, List.mem_append] at he
      rcases he with rfl | he | he
      · rfl
      · exact (processToolCalls_no_action_answer env stepIdx msg.tool_calls restore e he).1
      · exact ihA e he
    · rw [show AgentEvent.thinking (stepIdx + 1) ::
          ((processToolCalls env stepIdx msg.tool_calls restore).1 ++
            (runAgentFrom env script n (stepIdx + 1)
              (processToolCalls env stepIdx msg.tool_calls restore).2.1).1) =
          (AgentEvent.thinking (stepIdx + 1) ::
            (processToolCalls env stepIdx msg.tool_calls restore).1) ++
            (runAgentFrom env script n (stepIdx + 1)
              (processToolCalls env stepIdx msg.tool_calls restore).2.1).1 by simp]
      rw [List.getLast?_append_of_ne_nil _ hne2]
      exact ihC

theorem runAgentFrom_action_before_answer (env : ToolEnv) (script : List LLMResult) :
    ∀ (stepsLeft stepIdx : Nat) (restore : List (List String))
      (l₁ t : List AgentEvent) (u : List String) (n : Nat),
      (runAgentFrom env script stepsLeft stepIdx restore).1 =
        l₁ ++ AgentEvent.action u n :: t →
      ∃ a s t2, t = AgentEvent.answer a s false :: t2 := by
  intro stepsLeft
  induction stepsLeft with
  | zero =>
    intro stepIdx restore l₁ t u n h
    simp only [runAgentFrom] at h
    exact (no_action_decomp (by intro e he; simp at he; subst he; rfl) h).elim
  | succ m ih =>
    intro stepIdx restore l₁ t u n h
    cases hresp : getResponse script stepIdx with
    | failure msg =>
      simp only [runAgentFrom, hresp] at h
      refine (no_action_decomp ?_ h).elim
      intro e he
      simp at he
      rcases he with rfl | rfl <;> rfl
    | success msg =>
      simp only [runAgentFrom, hresp] at h
      by_cases hcalls : msg.tool_calls = []
      · rw [if_pos hcalls] at h
        by_cases hres : restore ≠ []
        · rw [if_pos hres] at h
          have h2 : [AgentEvent.thinking (stepIdx + 1)] ++
              ([AgentEvent.action (pyDedup restore.flatten) (pyDedup restore.flatten).length] ++
               [AgentEvent.answer msg.content (stepIdx + 1) false]) =
              l₁ ++ AgentEvent.action u n :: t := by simpa using h
          obtain ⟨l₂, hl₂⟩ := action_split _ _ (by intro e he; simp at he; subst he; rfl) h2
          cases l₂ with
          | nil =>
            simp only [List.nil_append] at hl₂
            rw [List.cons_append] at hl₂
            injection hl₂ with _ h3
            exact ⟨msg.content, stepIdx + 1, [], h3.symm⟩
          | cons x l₃ =>
            rw [List.cons_append] at hl₂
            injection hl₂ with _ h3
            refine (no_action_decomp ?_ h3).elim
            intro e he
            simp at he
            subst he
            rfl
        · rw [if_neg hres] at h
          refine (no_action_decomp ?_ h).elim
          intro e he
          simp at he
          rcases he with rfl | rfl <;> rfl
      · rw [if_neg hcalls] at h
        cases hab : (processToolCalls env stepIdx msg.tool_calls restore).2.2 with
        | some e =>
          rw [hab] at h
          refine (no_action_decomp ?_ h).elim
          intro e2 he2
          simp only [List.mem_cons] at he2
          rcases he2 with rfl | he2
          · rfl
          · exact (processToolCalls_no_action_answer env stepIdx msg.tool_calls restore e2 he2).1
        | none =>
          rw [hab] at h
          have h2 : (AgentEvent.thinking (stepIdx + 1) ::
              (processToolCalls env stepIdx msg.tool_calls restore).1) ++
              (runAgentFrom env script m (stepIdx + 1)
                (processToolCalls env stepIdx msg.tool_calls restore).2.1).1 =
              l₁ ++ AgentEvent.action u n :: t := by simpa using h
          obtain ⟨l₂, hl₂⟩ := action_split _ _ (by
            intro e2 he2
            simp only [List.mem_cons] at he2
            rcases he2 with rfl | he2
            · rfl
            · exact (processToolCalls_no_action_answer env stepIdx msg.tool_calls restore e2 he2).1) h2
          exact ih (stepIdx + 1) _ l₂ t u n hl₂

/-- C9: (a) in every run of the agent, an `action` event is immediately
followed by a non-truncated `answer` event — it never occurs anywhere else;
(b) whenever every scripted response within the step budget carries tool
calls that all dispatch successfully, the run exhausts `MAX_STEPS`: it emits
no `action` event at all (accumulated `batch_restore` URLs are silently
discarded) and its last event is the truncated answer. -/
theorem C9_truncated_run_discards_restores :
    (∀ (cfg : Option LLMConfig) (env : ToolEnv) (q : String) (script : List LLMResult)
       (l₁ t : List AgentEvent) (u : List String) (n : Nat),
       (run_agent cfg env q script).1 = l₁ ++ AgentEvent.action u n :: t →
       ∃ a s t2, t = AgentEvent.answer a s false :: t2) ∧
    (∀ (cfg : Option LLMConfig) (env : ToolEnv) (q : String) (script : List LLMResult),
       llmConfigured cfg = true →
       (∀ i < MAX_STEPS,
         ∃ msg, script.get? i = some (LLMResult.success msg) ∧ ¬ msg.tool_calls = [] ∧
           ∀ tc ∈ msg.tool_calls,
             ∃ res, dispatch_tool env tc.name (tc.args.getD emptyArgs) = Except.ok res) →
       (∀ e ∈ (run_agent cfg env q script).1, isActionEv e = false) ∧
       (run_agent cfg env q script).2 = none ∧
       (run_agent cfg env q script).1.getLast? =
         some (AgentEvent.answer TRUNCATED_MSG MAX_STEPS true)) := by
  constructor
  · intro cfg env q script l₁ t u n h
    unfold run_agent at h
    by_cases hcfg : llmConfigured cfg = true
    · rw [if_pos hcfg] at h
      exact runAgentFrom_action_before_answer env script MAX_STEPS 0 [] l₁ t u n h
    · rw [if_neg hcfg] at h
      refine (no_action_decomp ?_ h).elim
      intro e he
      simp at he
      subst he
      rfl
  · intro cfg env q script hcfg hscript
    unfold run_agent
    rw [if_pos hcfg]
    exact runAgentFrom_exhaust env script MAX_STEPS 0 []
      (fun i h1 h2 => hscript i (by omega))

/-! ## Claim C4 — behaviour with no completion provider configured

`run_agent` does fail immediately (agent_service.py lines 81–86).  But
`/llm-search` does NOT: `generate_keywords` returns an error with no
keywords, routes.py line 95 falls back to the raw query, the recall and the
heuristic rerank run, and results are returned with `llm_error` attached
(routes.py's own docstring calls this 降级为直接搜索 — degrade to direct
search).  The claim that the llm-search request "fails immediately … without
producing a search result" is FALSE. -/

def docEx : Doc :=
  { url := "u", title := ['t'], tab_id := 1, favicon := "", score := 1/2 }

/-- C4 counterexample: no provider configured, yet `/llm-search` returns one
search result (from a one-page index) together with the configuration error
message — the request succeeds instead of failing. -/
theorem C4_counterexample_llm_search_degrades :
    ((llm_search none { keywords := [], error := none } (fun _ d _ => d)
        (fun _ _ => [docEx]) ['q'] 5).results).length = 1 ∧
    (llm_search none { keywords := [], error := none } (fun _ d _ => d)
        (fun _ _ => [docEx]) ['q'] 5).llm_error = some KW_ERROR_MSG ∧
    (llm_search none { keywords := [], error := none } (fun _ d _ => d)
        (fun _ _ => [docEx]) ['q'] 5).keywords = [['q']] :=
  ⟨rfl, rfl, rfl⟩

/-- C4 (amended): with no completion provider configured (no config, or an
empty api_key), the agent request fails immediately with a single user-facing
`error` event and no answer; the llm-search request does not fail — it
degrades to a direct vector search on the raw query with heuristic
reranking, returns those results, and surfaces the configuration error only
as the `llm_error` field of a successful response. -/
theorem C4_amended_agent_fails_llm_search_degrades :
    (∀ (env : ToolEnv) (q : String) (script : List LLMResult),
      run_agent none env q script = ([AgentEvent.error AGENT_CFG_MSG], none)) ∧
    (∀ (c : LLMConfig) (env : ToolEnv) (q : String) (script : List LLMResult),
      c.api_key = "" →
      run_agent (some c) env q script = ([AgentEvent.error AGENT_CFG_MSG], none)) ∧
    (∀ (kwExternal : KwResult) (rerankLLMFn : List Char → List Doc → Nat → List Doc)
       (searchFn : List Char → Nat → List Doc) (query : List Char) (top_k : Nat),
      (llm_search none kwExternal rerankLLMFn searchFn query top_k).llm_error =
        some KW_ERROR_MSG ∧
      (llm_search none kwExternal rerankLLMFn searchFn query top_k).keywords = [query] ∧
      (llm_search none kwExternal rerankLLMFn searchFn query top_k).results =
        (rerank_by_heuristics query
          (sortByDesc Doc.score
            (recallMerge searchFn (min (top_k * 3) 20) [query] [])) top_k).map cleanDoc) := by
  refine ⟨fun env q script => rfl, ?_, ?_⟩
  · intro c env q script h
    unfold run_agent
    rw [if_neg]
    simp [llmConfigured, h]
  · intro kwExternal rerankLLMFn searchFn query top_k
    refine ⟨rfl, rfl, ?_⟩
    show (rerank none rerankLLMFn query
        (sortByDesc Doc.score
          (recallMerge searchFn (min (top_k * 3) 20) [query] [])) top_k true).map cleanDoc = _
    by_cases hm : sortByDesc Doc.score (recallMerge searchFn (min (top_k * 3) 20) [query] []) = []
    · unfold rerank
      rw [if_pos hm, hm]
      simp [rerank_by_heuristics, sortByDesc]
    · unfold rerank
      rw [if_neg hm, if_neg]
      simp [llmConfigured]

/-! ## Claim C10 — heuristic-mode client scores are `final_score / 100` -/

/-- C10: the route divides `final_score` by 100 uniformly whenever it is
present; consequently, when no provider is configured (heuristic rerank mode)
every score `/llm-search` returns to the client is the merged candidate's
`original_similarity × penalty × bonus` divided by 100 — a scale roughly 100
times smaller than the raw similarity. -/
theorem C10_heuristic_scores_divided_by_100
    (kwExternal : KwResult) (rerankLLMFn : List Char → List Doc → Nat → List Doc)
    (searchFn : List Char → Nat → List Doc) (query : List Char) (top_k : Nat) :
    (∀ (d : Doc) (f : ℚ), d.final_score = some f → (cleanDoc d).score = f / 100) ∧
    (∀ r ∈ (llm_search none kwExternal rerankLLMFn searchFn query top_k).results,
      ∃ d0 ∈ sortByDesc Doc.score (recallMerge searchFn (min (top_k * 3) 20) [query] []),
        r.score = d0.score *
          ((if docLines (docText d0) ≠ [] ∧
              (((docLines (docText d0)).map List.length).sum : ℚ) <
                20 * ((docLines (docText d0)).length : ℚ) then (0.7 : ℚ) else 1) *
           (if docLines (docText d0) ≠ [] ∧
              ((docLines (docText d0)).length : ℚ) <
                2 * ((docLines (docText d0)).countP listMarker : ℚ) then (0.6 : ℚ) else 1)) *
          (1 + ((pyDedup (findWords (query.map Char.toLower))).countP
              (fun t => containsSub t ((docText d0).map Char.toLower)) : ℚ) * 0.05) / 100) := by
  constructor
  · intro d f h
    simp [cleanDoc, h]
  · intro r hr
    have hr2 : r ∈ (rerank none rerankLLMFn query
        (sortByDesc Doc.score
          (recallMerge searchFn (min (top_k * 3) 20) [query] [])) top_k true).map cleanDoc := hr
    by_cases hm : sortByDesc Doc.score (recallMerge searchFn (min (top_k * 3) 20) [query] []) = []
    · exfalso
      unfold rerank at hr2
      rw [if_pos hm] at hr2
      simp at hr2
    · unfold rerank at hr2
      rw [if_neg hm, if_neg] at hr2
      · obtain ⟨r0, hr0mem, hr0eq⟩ := List.mem_map.1 hr2
        obtain ⟨d0, hd0, hr0⟩ := rerank_by_heuristics_mem query _ top_k r0 hr0mem
        refine ⟨d0, hd0, ?_⟩
        have hfs := heurFinal_final_score (pyDedup (findWords (query.map Char.toLower))) d0
        rw [← hr0] at hfs
        rw [← hr0eq]
        simp [cleanDoc, hfs]
      · simp [llmConfigured]
